import Mathlib

/-!
# Verification of `utils.py` (single-cell analysis utility functions)

A shallow embedding of the string-matching, table-building and
error-handling logic of `utils.py`:

* `check_markers` — matching differential-expression (DE) genes against
  reference marker patterns (`src/utils.py`, lines 46–88);
* `plot_markers` — resolution of a display key to a list of feature
  names, with its `ValueError` conditions and `n_max` truncation
  (`src/utils.py`, lines 91–227);
* `map_to_mgi` — identifier-to-symbol remapping via drop-duplicates,
  left join and fillna (`src/utils.py`, lines 289–341);
* `cluster_distr` — per-cluster batch composition percentages
  (`src/utils.py`, lines 487–553).

Python strings are embedded as `List Char`.  The patterns handed to
`re.compile` are embedded at the level of regular-expression abstract
syntax (`Regex` below): the Python `re` parser is outside the scope of
the embedding, and a metacharacter-free gene name `g` corresponds to the
literal regex `litP g`.  Matching is executable via Brzozowski
derivatives; a declarative big-step semantics `Matches` is used to state
what a successful match means.
-/

/-- Python strings, embedded as lists of characters. -/
abbrev Str := List Char

/-- Regular-expression abstract syntax.  `nul` (the empty language) never
occurs in an embedded pattern; it is needed as a result of derivatives. -/
inductive Regex where
  | nul : Regex
  | eps : Regex
  | char : Char → Regex
  | any : Regex
  | cat : Regex → Regex → Regex
  | alt : Regex → Regex → Regex
  | star : Regex → Regex
deriving DecidableEq

/-- Character comparison used by the matcher. `ci = true` embeds
`re.IGNORECASE`: characters compare equal up to `toLower`; `ci = false`
is plain equality. -/
def charEq (ci : Bool) (a b : Char) : Bool :=
  if ci then a.toLower == b.toLower else a == b

/-- Declarative whole-string matching semantics of a regex, parametrised
by the character comparison (so the same relation covers case-sensitive
and `re.IGNORECASE` matching). -/
inductive Matches (ci : Bool) : Regex → Str → Prop where
  | eps : Matches ci .eps []
  | char {c d : Char} : charEq ci c d = true → Matches ci (.char c) [d]
  | any {d : Char} : Matches ci .any [d]
  | cat {r₁ r₂ : Regex} {s₁ s₂ : Str} :
      Matches ci r₁ s₁ → Matches ci r₂ s₂ → Matches ci (.cat r₁ r₂) (s₁ ++ s₂)
  | altL {r₁ r₂ : Regex} {s : Str} : Matches ci r₁ s → Matches ci (.alt r₁ r₂) s
  | altR {r₁ r₂ : Regex} {s : Str} : Matches ci r₂ s → Matches ci (.alt r₁ r₂) s
  | starNil {r : Regex} : Matches ci (.star r) []
  | starCons {r : Regex} {s₁ s₂ : Str} :
      Matches ci r s₁ → Matches ci (.star r) s₂ → Matches ci (.star r) (s₁ ++ s₂)

/-- Does the regex accept the empty string? -/
def Regex.nullable : Regex → Bool
  | .nul => false
  | .eps => true
  | .char _ => false
  | .any => false
  | .cat r₁ r₂ => r₁.nullable && r₂.nullable
  | .alt r₁ r₂ => r₁.nullable || r₂.nullable
  | .star _ => true

/-- Brzozowski derivative of a regex with respect to an input character. -/
def Regex.deriv (ci : Bool) (c : Char) : Regex → Regex
  | .nul => .nul
  | .eps => .nul
  | .char d => if charEq ci d c then .eps else .nul
  | .any => .eps
  | .cat r₁ r₂ =>
      if r₁.nullable then .alt (.cat (r₁.deriv ci c) r₂) (r₂.deriv ci c)
      else .cat (r₁.deriv ci c) r₂
  | .alt r₁ r₂ => .alt (r₁.deriv ci c) (r₂.deriv ci c)
  | .star r => .cat (r.deriv ci c) (.star r)

/-- Executable whole-string acceptance, by iterated derivatives. -/
def Regex.acceptsL (ci : Bool) (r : Regex) : Str → Bool
  | [] => r.nullable
  | c :: s => (r.deriv ci c).acceptsL ci s

/-- Embedding of `re.compile('^' + pattern + '$', flags).search(s)`: the
anchors make `search` a whole-string match (feature names contain no
newline, so the trailing-newline subtlety of Python `$` does not arise). -/
def reFull (ci : Bool) (r : Regex) (s : Str) : Bool :=
  r.acceptsL ci s

/-- Embedding of un-anchored `re.compile(pattern, flags).search(s)`:
some contiguous substring of `s` is accepted. -/
def reSearch (ci : Bool) (r : Regex) (s : Str) : Bool :=
  (s.tails.flatMap List.inits).any (r.acceptsL ci)

/-- The literal regex denoted by a metacharacter-free pattern string. -/
def litP : Str → Regex
  | [] => .eps
  | c :: s => .cat (.char c) (litP s)

/-! ## Soundness of the derivative matcher -/

theorem nullable_sound {ci : Bool} : ∀ {r : Regex}, r.nullable = true → Matches ci r [] := by
  intro r h
  induction r with
  | nul => simp [Regex.nullable] at h
  | eps => exact .eps
  | char c => simp [Regex.nullable] at h
  | any => simp [Regex.nullable] at h
  | cat r₁ r₂ ih₁ ih₂ =>
      simp [Regex.nullable, Bool.and_eq_true] at h
      simpa using Matches.cat (ih₁ h.1) (ih₂ h.2)
  | alt r₁ r₂ ih₁ ih₂ =>
      simp [Regex.nullable, Bool.or_eq_true] at h
      cases h with
      | inl h => exact .altL (ih₁ h)
      | inr h => exact .altR (ih₂ h)
  | star r _ => exact .starNil

theorem deriv_sound {ci : Bool} {c : Char} :
    ∀ {r : Regex} {s : Str}, Matches ci (r.deriv ci c) s → Matches ci r (c :: s) := by
  intro r
  induction r with
  | nul => intro s h; cases h
  | eps => intro s h; cases h
  | char d =>
      intro s h
      by_cases hc : charEq ci d c
      · simp [Regex.deriv, hc] at h
        cases h
        exact .char hc
      · simp [Regex.deriv, hc] at h
        cases h
  | any =>
      intro s h
      cases h
      exact .any
  | cat r₁ r₂ ih₁ ih₂ =>
      intro s h
      by_cases hn : r₁.nullable
      · simp only [Regex.deriv, hn, if_true] at h
        cases h with
        | altL h =>
            cases h with
            | cat h₁ h₂ => exact (List.cons_append _ _ _) ▸ Matches.cat (ih₁ h₁) h₂
        | altR h =>
            simpa using Matches.cat (nullable_sound hn) (ih₂ h)
      · simp only [Regex.deriv, hn, if_false] at h
        cases h with
        | cat h₁ h₂ => exact (List.cons_append _ _ _) ▸ Matches.cat (ih₁ h₁) h₂
  | alt r₁ r₂ ih₁ ih₂ =>
      intro s h
      cases h with
      | altL h => exact .altL (ih₁ h)
      | altR h => exact .altR (ih₂ h)
  | star r ih =>
      intro s h
      cases h with
      | cat h₁ h₂ => exact (List.cons_append _ _ _) ▸ Matches.starCons (ih h₁) h₂

theorem acceptsL_sound {ci : Bool} :
    ∀ {s : Str} {r : Regex}, r.acceptsL ci s = true → Matches ci r s := by
  intro s
  induction s with
  | nil => intro r h; exact nullable_sound h
  | cons c s ih => intro r h; exact deriv_sound (ih h)

/-- Case-sensitive character agreement implies case-insensitive agreement. -/
theorem charEq_mono {a b : Char} : charEq false a b = true → charEq true a b = true := by
  intro h
  simp [charEq] at h ⊢
  exact congrArg Char.toLower h

/-- A case-sensitive match is in particular a case-insensitive match. -/
theorem Matches_mono {r : Regex} {s : Str} : Matches false r s → Matches true r s := by
  intro h
  induction h with
  | eps => exact .eps
  | char hc => exact .char (charEq_mono hc)
  | any => exact .any
  | cat _ _ ih₁ ih₂ => exact .cat ih₁ ih₂
  | altL _ ih => exact .altL ih
  | altR _ ih => exact .altR ih
  | starNil => exact .starNil
  | starCons _ _ ih₁ ih₂ => exact .starCons ih₁ ih₂

/-! ## `check_markers` (src/utils.py lines 46–88) -/

/-- `result = [l for l in de_genes_group for m in [regex.search(l)] if m]`
followed by taking `result[0]` when non-empty: the first name in the list
that the anchored pattern matches. -/
def firstMatch (ci : Bool) (p : Regex) (names : List Str) : Option Str :=
  (names.filter (fun l => reFull ci p l)).head?

/-- The `genes_found` list built for one marker category: for each
pattern, the first matching DE gene is appended; patterns with no match
contribute nothing. `check_markers` compiles every pattern with
`re.IGNORECASE`. -/
def genesFound (de_genes_group : List Str) (pats : List Regex) : List Str :=
  pats.filterMap (fun gene => firstMatch true gene de_genes_group)

/-- Embedding of `check_markers`.  The DE table is an association list
from cluster (column) label to its ordered gene list; the marker dict is
an association list from category to its pattern list.  `matches[group]`
is created for every cluster; `matches[group][key]` is assigned only
when `genes_found` is non-empty. -/
def check_markers (de_genes : List (Str × List Str))
    (marker_genes : List (Str × List Regex)) :
    List (Str × List (Str × List Str)) :=
  de_genes.map (fun g =>
    (g.1, marker_genes.filterMap (fun k =>
      let gf := genesFound g.2 k.2
      if gf.isEmpty then none else some (k.1, gf))))

example :
    check_markers [("0".data, ["Cd3e".data, "Foxp3".data])]
      [("Tcell".data, [litP "Cd3e".data, litP "Cd3d".data])] =
    [("0".data, [("Tcell".data, ["Cd3e".data])])] := by decide

example :
    check_markers [("0".data, ["Foo".data])] [("T".data, [litP "Bar".data])] =
    [("0".data, [])] := by decide

example : reFull true (litP "Cd3".data) "Cd3e".data = false := by decide

example : reFull true (litP "Cd3".data) "cD3".data = true := by decide

/-! ## `plot_markers` (src/utils.py lines 91–227)

Only the parts of `plot_markers` that the claims are about are embedded:
the resolution of the `key` argument to a list of feature names, the
`ValueError` raises, and the `n_max` truncation.  The plotting calls
below line 229 of the source consume the resolved list without changing
it.  The fields of the `AnnData` object that this logic touches are
gathered in `AData`. -/

/-- The three `ValueError`s `plot_markers` can raise, by source line:
`missingBasis` (line 130), `missingProtein` (line 202), `noGenes`
(line 218). -/
inductive VEKind where
  | missingBasis : VEKind
  | missingProtein : VEKind
  | noGenes : VEKind
deriving DecidableEq

/-- A Python exception escaping `plot_markers`: a `ValueError` raised
explicitly, or the `TypeError` that `genes.append(*genes_)` (line 196)
raises when `genes_` does not have exactly one element. -/
inductive PErr where
  | valueError : VEKind → PErr
  | typeError : PErr
deriving DecidableEq

/-- The fields of the annotated data matrix that `plot_markers` reads:
the key sets of `adata.obsm` and `adata.uns`, the feature names
`adata.var_names`, the raw feature names (`none` when `adata.raw` does
not exist, making line 141's `try` fall back), and the value stored at
`adata.uns[prot_names_key]`. -/
structure AData where
  obsm_keys : List Str
  uns_keys : List Str
  var_names : List Str
  raw_var_names : Option (List Str)
  protein_names : List Str

/-- Lines 166–184: the key names a marker category; for each of its
patterns, compiled as `'^' + gene + '$'` (with `re.IGNORECASE` iff
`ignore_case`), the first matching feature name is kept; patterns with
no match go to the `not_found` report and contribute nothing. -/
def markerGenes (ignore_case : Bool) (pats : List Regex) (var_names : List Str) : List Str :=
  pats.filterMap (fun gene => firstMatch ignore_case gene var_names)

/-- Lines 154–162: the key is not in the markers dict and is used as one
un-anchored regex over the feature names.  Both branches of the source's
`if ignore_case` (lines 157–160) call `re.compile(key, re.IGNORECASE)`,
so the flag has no effect here; the embedding reproduces that. -/
def freeTextGenes (ignore_case : Bool) (keyRE : Regex) (var_names : List Str) : List Str :=
  let ci := if ignore_case then true else true
  var_names.filter (fun l => reSearch ci keyRE l)

/-- Lines 186–196: no markers dict; `for gene in key` iterates over the
characters of the key string, each compiled as an un-anchored regex, and
`genes.append(*genes_)` demands exactly one match per character
(otherwise Python raises `TypeError`). -/
def charKeyGenes (ignore_case : Bool) (var_names : List Str) (genes : List Str) :
    Str → Except PErr (List Str)
  | [] => .ok genes
  | c :: cs =>
      match var_names.filter (fun l => reSearch ignore_case (.char c) l) with
      | [g] => charKeyGenes ignore_case var_names (genes ++ [g]) cs
      | _ => .error .typeError

/-- Lines 197–213: protein mode; the key is one un-anchored regex over
the protein names, with `re.IGNORECASE` iff `ignore_case`. -/
def proteinGenes (ignore_case : Bool) (keyRE : Regex) (protein_names : List Str) : List Str :=
  protein_names.filter (fun l => reSearch ignore_case keyRE l)

/-- Lines 140–213: the gene/protein list resolution of `plot_markers`.
`key` is the display key as a string (used for the dict lookup and, in
the no-markers branch, iterated character by character); `keyRE` is the
regex the `re` module parses it to when it is compiled whole. -/
def resolveGenes (adata : AData) (key : Str) (keyRE : Regex)
    (markers : Option (List (Str × List Regex)))
    (use_raw ignore_case protein : Bool) (prot_key prot_names_key : Str) :
    Except PErr (List Str) :=
  let vns := if use_raw then adata.raw_var_names.getD adata.var_names else adata.var_names
  if protein then
    if prot_names_key ∉ adata.uns_keys ∨ prot_key ∉ adata.obsm_keys then
      .error (.valueError .missingProtein)
    else
      .ok (proteinGenes ignore_case keyRE adata.protein_names)
  else
    match markers with
    | some mk =>
        match mk.find? (fun kv => kv.1 == key) with
        | some kv => .ok (markerGenes ignore_case kv.2 vns)
        | none => .ok (freeTextGenes ignore_case keyRE vns)
    | none => charKeyGenes ignore_case vns [] key

/-- `plot_markers` up to the list of features it hands to the plotting
code: the basis check (line 129), resolution, the zero-match check
(line 217) and the `n_max` truncation (lines 221–223). -/
def plot_markers_genes (adata : AData) (key : Str) (keyRE : Regex)
    (markers : Option (List (Str × List Regex))) (basis : Str) (n_max : Nat)
    (use_raw ignore_case protein : Bool) (prot_key prot_names_key : Str) :
    Except PErr (List Str) :=
  if ("X_".data ++ basis) ∉ adata.obsm_keys then
    .error (.valueError .missingBasis)
  else
    match resolveGenes adata key keyRE markers use_raw ignore_case protein
        prot_key prot_names_key with
    | .error e => .error e
    | .ok genes =>
        if genes.length = 0 then .error (.valueError .noGenes)
        else .ok (if n_max < genes.length then genes.take n_max else genes)

/-! ## `map_to_mgi` (src/utils.py lines 289–341)

The conversion table returned by the biomart query is an input here: a
list of rows `(ensembl identifier, optional gene symbol)`, the symbol
being `none` where the service reports no MGI name (a NaN cell). -/

/-- `conv_table.drop_duplicates(first column)`: keep the first row for
each identifier, drop later repetitions. -/
def dropDupAux (seen : List Str) : List (Str × Option Str) → List (Str × Option Str)
  | [] => []
  | x :: l =>
      if x.1 ∈ seen then dropDupAux seen l
      else x :: dropDupAux (x.1 :: seen) l

/-- The deduplicated conversion table (line 309). -/
def drop_duplicates (conv : List (Str × Option Str)) : List (Str × Option Str) :=
  dropDupAux [] conv

/-- One feature row after `adata_table.join(conv_table, on=identifier)`
(line 322): a pandas left join emits one output row per matching row of
the (indexed) right table, and a single row with a NaN symbol when the
identifier is absent. -/
def joinRows (conv : List (Str × Option Str)) (id : Str) : List (Str × Option Str) :=
  match conv.filter (fun r => r.1 == id) with
  | [] => [(id, none)]
  | rows => rows.map (fun r => (id, r.2))

/-- The joined mapping table, one block of rows per feature name. -/
def leftJoin (var_names : List Str) (conv : List (Str × Option Str)) :
    List (Str × Option Str) :=
  var_names.flatMap (joinRows conv)

/-- Embedding of `map_to_mgi`'s symbol computation: deduplicate the
conversion table, left-join the feature table against it, fill missing
symbols with the identifier (line 338) and read off the symbol column
(line 341). -/
def map_to_mgi (var_names : List Str) (conv_table : List (Str × Option Str)) : List Str :=
  let conv := drop_duplicates conv_table
  let mapping := leftJoin var_names conv
  mapping.map (fun r => r.2.getD r.1)

/-- Specification-level description of the symbol a feature ends up
with: the symbol of the first conversion row carrying its identifier,
falling back to the identifier itself when that row is absent or its
symbol is missing. -/
def mgiSymbolSpec (conv_table : List (Str × Option Str)) (id : Str) : Str :=
  match conv_table.find? (fun r => r.1 == id) with
  | some r => r.2.getD id
  | none => id

example : map_to_mgi ["ENSMUSG1".data] [("ENSMUSG1".data, none)] = ["ENSMUSG1".data] := by
  decide

/-! ## `cluster_distr` (src/utils.py lines 487–553)

The observation table is embedded as the list of per-cell
`(cluster label, batch label)` pairs.  Only the percentage columns and
the structure of the returned frame are modelled; the entropy column
delegates to `scipy.stats.entropy` and no claim is about its value. -/

/-- `np.sum(adata.obs[cluster_key] == cluster)`: cells in a cluster. -/
def nCluster (obs : List (Str × Str)) (c : Str) : Nat :=
  obs.countP (fun x => x.1 == c)

/-- Cells in a cluster that belong to a given batch (the comprehension
on line 535 over the batch-restricted observation table). -/
def nClusterBatch (obs : List (Str × Str)) (c b : Str) : Nat :=
  obs.countP (fun x => x.1 == c && x.2 == b)

/-- `np.round` rounds half to even (banker's rounding): down below the
half, up above it, and to the even neighbour at an exact half. -/
def roundHalfEven (x : ℚ) : ℤ :=
  if x - ⌊x⌋ < 1/2 then ⌊x⌋
  else if 1/2 < x - ⌊x⌋ then ⌊x⌋ + 1
  else if ⌊x⌋ % 2 = 0 then ⌊x⌋ else ⌊x⌋ + 1

/-- `np.round(·, 2)`: round to two decimal places. -/
def np_round2 (x : ℚ) : ℚ :=
  (roundHalfEven (100 * x) : ℚ) / 100

/-- The exact ratio `count(cluster ∧ batch) / count(cluster)`. -/
def percRaw (obs : List (Str × Str)) (c b : Str) : ℚ :=
  (nClusterBatch obs c b : ℚ) / (nCluster obs c : ℚ)

/-- The entry of column `perc_batch` at row `cluster` (lines 536–538). -/
def percEntry (obs : List (Str × Str)) (c b : Str) : ℚ :=
  np_round2 (percRaw obs c b)

/-- The `total number` entry at row `cluster` (lines 529–530). -/
def totalEntry (obs : List (Str × Str)) (c : Str) : Nat :=
  nCluster obs c

/-- The index of the returned frame: the cluster categories (line 526). -/
def cluster_distr_index (clusters : List Str) : List Str :=
  clusters

/-- The columns of the returned frame, in construction order: one
`perc_` column per batch (line 526), then `total number` (line 530),
then `entropy` (line 550). -/
def cluster_distr_cols (batches : List Str) : List Str :=
  batches.map (fun b => "perc_".data ++ b) ++ ["total number".data, "entropy".data]

/-! ## Claims about `check_markers` -/

/-- A non-empty `genes_found` list witnesses at least one pattern of the
category matching at least one DE gene of the cluster. -/
theorem genesFound_ne_nil {dl : List Str} {pats : List Regex}
    (h : genesFound dl pats ≠ []) :
    ∃ p ∈ pats, ∃ l ∈ dl, reFull true p l = true := by
  rw [Ne, genesFound, List.filterMap_eq_nil_iff] at h
  push_neg at h
  obtain ⟨p, hp, hfm⟩ := h
  refine ⟨p, hp, ?_⟩
  unfold firstMatch at hfm
  obtain ⟨g, hg⟩ := Option.ne_none_iff_exists'.mp hfm
  have hmem : g ∈ dl.filter (fun l => reFull true p l) := List.mem_of_mem_head? (by simp [hg])
  rw [List.mem_filter] at hmem
  exact ⟨g, hmem.1, hmem.2⟩

/-- C1 (counterexample): a cluster none of whose DE genes match any
pattern is still present in the result of `check_markers`, paired with an
empty category mapping — it is not omitted. -/
theorem check_markers_empty_cluster_counterexample :
    ("0".data, ([] : List (Str × List Str))) ∈
      check_markers [("0".data, ["Foo".data])] [("T".data, [litP "Bar".data])] := by
  decide

/-- C1 (amended): `check_markers` keeps every cluster of the DE table as
a key of the result, in order (possibly with an empty category mapping);
a (cluster, category) entry is present only when at least one pattern of
that category matches at least one DE gene of that cluster, and
categories with zero matches are omitted from that cluster's mapping. -/
theorem check_markers_entry_only_if_match :
    ∀ (de : List (Str × List Str)) (mk : List (Str × List Regex)),
      ((check_markers de mk).map Prod.fst = de.map Prod.fst) ∧
      (∀ g ent, (g, ent) ∈ check_markers de mk →
        ∃ dl, (g, dl) ∈ de ∧
          ∀ k gf, (k, gf) ∈ ent →
            gf ≠ [] ∧ ∃ pats, (k, pats) ∈ mk ∧
              ∃ p ∈ pats, ∃ l ∈ dl, reFull true p l = true) := by
  intro de mk
  constructor
  · simp [check_markers]
  · intro g ent hmem
    rw [check_markers, List.mem_map] at hmem
    obtain ⟨a, ha, heq⟩ := hmem
    obtain ⟨hg, hent⟩ := Prod.mk.injEq .. ▸ heq
    refine ⟨a.2, by rw [← hg]; simpa using ha, ?_⟩
    intro k gf hkg
    rw [← hent, List.mem_filterMap] at hkg
    obtain ⟨kv, hkv, hcond⟩ := hkg
    by_cases hemp : (genesFound a.2 kv.2).isEmpty
    · simp [hemp] at hcond
    · simp only [hemp, Bool.false_eq_true, if_false, Option.some.injEq, Prod.mk.injEq] at hcond
      obtain ⟨hk, hgf⟩ := hcond
      have hne : genesFound a.2 kv.2 ≠ [] := by
        intro hnil; rw [hnil] at hemp; simp at hemp
      refine ⟨by rw [← hgf]; exact hne, kv.2, ?_, genesFound_ne_nil hne⟩
      rw [← hk]; simpa using hkv

/-- Witness for C1 (amended), at the concrete input
`de = [("0", ["Cd3e"])]`, `mk = [("T", [litP "Cd3e"])]`. -/
theorem check_markers_entry_only_if_match_witness :
    ∃ dl, ("0".data, dl) ∈ [("0".data, ["Cd3e".data])] ∧
      ∀ k gf, (k, gf) ∈ [("T".data, ["Cd3e".data])] →
        gf ≠ [] ∧ ∃ pats, (k, pats) ∈ [("T".data, [litP "Cd3e".data])] ∧
          ∃ p ∈ pats, ∃ l ∈ dl, reFull true p l = true :=
  (check_markers_entry_only_if_match [("0".data, ["Cd3e".data])]
      [("T".data, [litP "Cd3e".data])]).2
    "0".data [("T".data, ["Cd3e".data])] (by decide)

/-- C2: the anchored matcher used by `check_markers` (always with
`re.IGNORECASE`) and by the marker-category branch of `plot_markers`
(with `re.IGNORECASE` iff `ignore_case`) only declares a match when the
whole feature name matches the pattern ignoring case; in particular the
pattern `Cd3` does not match the feature `Cd3e`, while it does match
`cD3`. -/
theorem marker_pattern_full_match_ci :
    (∀ (ci : Bool) (p : Regex) (s : Str), reFull ci p s = true → Matches true p s) ∧
    reFull true (litP "Cd3".data) "Cd3e".data = false ∧
    reFull true (litP "Cd3".data) "cD3".data = true := by
  refine ⟨?_, by decide, by decide⟩
  intro ci p s h
  cases ci
  · exact Matches_mono (acceptsL_sound h)
  · exact acceptsL_sound h

/-- Witness for C2 at the concrete pattern `Cd3` and feature `cd3`. -/
theorem marker_pattern_full_match_ci_witness :
    Matches true (litP "Cd3".data) "cd3".data :=
  marker_pattern_full_match_ci.1 true (litP "Cd3".data) "cd3".data (by decide)

/-- C3: for each cluster, category and pattern, `check_markers` records
exactly the first DE gene of the cluster's list that the pattern
matches; a pattern matching zero genes contributes nothing (silently);
and on the spec's scenario — markers `{"Tcell": ["Cd3e", "Cd3d"]}`, DE
genes `["Cd3e", "Foxp3"]` for cluster `"0"` — the result is
`{"0": {"Tcell": ["Cd3e"]}}`. -/
theorem check_markers_records_first_match :
    (∀ (p : Regex) (u : List Str) (l : Str) (v : List Str),
        reFull true p l = true → (∀ x ∈ u, reFull true p x = false) →
        firstMatch true p (u ++ l :: v) = some l) ∧
    (∀ (p : Regex) (dl : List Str), (∀ x ∈ dl, reFull true p x = false) →
        ∀ pats₁ pats₂ : List Regex,
          genesFound dl (pats₁ ++ p :: pats₂) =
            genesFound dl pats₁ ++ genesFound dl pats₂) ∧
    check_markers [("0".data, ["Cd3e".data, "Foxp3".data])]
        [("Tcell".data, [litP "Cd3e".data, litP "Cd3d".data])] =
      [("0".data, [("Tcell".data, ["Cd3e".data])])] := by
  refine ⟨?_, ?_, by decide⟩
  · intro p u l v hl hu
    unfold firstMatch
    rw [List.filter_append]
    have hu' : u.filter (fun x => reFull true p x) = [] := by
      rw [List.filter_eq_nil_iff]
      intro a ha
      simp [hu a ha]
    rw [hu']
    simp [List.filter_cons, hl]
  · intro p dl hdl pats₁ pats₂
    unfold genesFound
    rw [List.filterMap_append, List.filterMap_cons]
    have hnone : firstMatch true p dl = none := by
      unfold firstMatch
      have : dl.filter (fun x => reFull true p x) = [] := by
        rw [List.filter_eq_nil_iff]
        intro a ha
        simp [hdl a ha]
      rw [this]
      rfl
    rw [hnone]

/-- Witness for C3: the pattern `Cd3d` first matches `Cd3d` in
`["Foxp3", "Cd3d", "Cd3e"]`, skipping the non-matching prefix. -/
theorem check_markers_records_first_match_witness :
    firstMatch true (litP "Cd3d".data)
        (["Foxp3".data] ++ "Cd3d".data :: ["Cd3e".data]) = some "Cd3d".data :=
  check_markers_records_first_match.1 (litP "Cd3d".data) ["Foxp3".data]
    "Cd3d".data ["Cd3e".data] (by decide) (by decide)

/-- C10: the per-category list of `check_markers` is not duplicate-free:
when two patterns of one category both have the same DE gene as their
first match, that gene is appended once per pattern. -/
theorem check_markers_allows_duplicates :
    (∀ (dl : List Str) (p q : Regex) (g : Str),
        firstMatch true p dl = some g → firstMatch true q dl = some g →
        genesFound dl [p, q] = [g, g]) ∧
    ¬ (genesFound ["Cd3e".data] [litP "Cd3e".data, litP "CD3E".data]).Nodup ∧
    check_markers [("0".data, ["Cd3e".data])]
        [("T".data, [litP "Cd3e".data, litP "CD3E".data])] =
      [("0".data, [("T".data, ["Cd3e".data, "Cd3e".data])])] := by
  refine ⟨?_, by decide, by decide⟩
  intro dl p q g hp hq
  unfold genesFound
  simp [List.filterMap_cons, hp, hq]

/-- Witness for C10: the two case-variant literal patterns `Cd3e` and
`CD3E` both first-match the gene `Cd3e`, which is then recorded twice. -/
theorem check_markers_allows_duplicates_witness :
    genesFound ["Cd3e".data] [litP "Cd3e".data, litP "CD3E".data] =
      ["Cd3e".data, "Cd3e".data] :=
  check_markers_allows_duplicates.1 ["Cd3e".data] (litP "Cd3e".data)
    (litP "CD3E".data) "Cd3e".data (by decide) (by decide)

/-! ## Claims about `plot_markers` -/

/-- C4 (code bug, lines 157–160): in the free-text branch of
`plot_markers` the `ignore_case` flag has no effect — both branches of
the source's `if ignore_case` compile the key with `re.IGNORECASE` — so
with `ignore_case = False` the lower-case key `cd3e` still matches the
feature `Cd3e`, which a case-sensitive search must not. -/
theorem free_text_branch_ignores_case_flag :
    (∀ (keyRE : Regex) (vns : List Str),
        freeTextGenes false keyRE vns = freeTextGenes true keyRE vns) ∧
    freeTextGenes false (litP "cd3e".data) ["Cd3e".data] = ["Cd3e".data] ∧
    reSearch false (litP "cd3e".data) "Cd3e".data = false := by
  refine ⟨?_, by decide, by decide⟩
  intro keyRE vns
  rfl

/-! ## Claims about `map_to_mgi` -/

/-- Rows whose identifier is already in `seen` are gone after
deduplication. -/
theorem dropDupAux_filter_mem (id : Str) :
    ∀ (l : List (Str × Option Str)) (seen : List Str), id ∈ seen →
      (dropDupAux seen l).filter (fun r => r.1 == id) = [] := by
  intro l
  induction l with
  | nil => intro seen _; rfl
  | cons x l ih =>
      intro seen hid
      unfold dropDupAux
      by_cases hx : x.1 ∈ seen
      · simp only [hx, if_true]
        exact ih seen hid
      · simp only [hx, if_false]
        rw [List.filter_cons]
        have hne : (x.1 == id) = false := by
          rw [beq_eq_false_iff_ne]
          intro he
          exact hx (he ▸ hid)
        simp only [hne, Bool.false_eq_true, if_false]
        exact ih (x.1 :: seen) (List.mem_cons_of_mem _ hid)

/-- For an identifier not yet seen, the deduplicated table holds exactly
the first row of the original table that carries it (or none at all). -/
theorem dropDupAux_filter_find (id : Str) :
    ∀ (l : List (Str × Option Str)) (seen : List Str), id ∉ seen →
      (dropDupAux seen l).filter (fun r => r.1 == id) =
        (l.find? (fun r => r.1 == id)).toList := by
  intro l
  induction l with
  | nil => intro seen _; rfl
  | cons x l ih =>
      intro seen hid
      unfold dropDupAux
      by_cases hx : x.1 ∈ seen
      · have hne : (x.1 == id) = false := by
          rw [beq_eq_false_iff_ne]
          intro he
          exact hid (he ▸ hx)
        simp only [hx, if_true, List.find?_cons, hne]
        exact ih seen hid
      · simp only [hx, if_false]
        rw [List.filter_cons, List.find?_cons]
        by_cases hxi : (x.1 == id) = true
        · simp only [hxi, if_true, Option.toList_some]
          congr 1
          refine dropDupAux_filter_mem id l (x.1 :: seen) ?_
          have hx1 : x.1 = id := eq_of_beq hxi
          rw [← hx1]
          exact List.mem_cons_self x.1 seen
        · have hxi' : (x.1 == id) = false := by simpa using hxi
          simp only [hxi', Bool.false_eq_true, if_false]
          refine ih (x.1 :: seen) ?_
          intro hmem
          rcases List.mem_cons.mp hmem with he | he
          · refine hxi ?_
            rw [he]
            exact beq_self_eq_true x.1
          · exact hid he

/-- After deduplication, the left join emits exactly one row per
feature: the first conversion row carrying its identifier, or a row with
a missing symbol. -/
theorem joinRows_drop_duplicates (conv : List (Str × Option Str)) (id : Str) :
    joinRows (drop_duplicates conv) id =
      [(id, (conv.find? (fun r => r.1 == id)).bind (fun r => r.2))] := by
  unfold joinRows drop_duplicates
  rw [dropDupAux_filter_find id conv [] (List.not_mem_nil id)]
  cases hf : conv.find? (fun r => r.1 == id) with
  | none => rfl
  | some r => rfl

/-- C8: after the left join against the deduplicated conversion table,
every feature whose identifier has no mapped symbol — whether its row is
absent or its symbol cell is missing — receives its own identifier as
symbol, so each feature's final symbol is the first mapped symbol if one
exists and the identifier otherwise; on the spec's scenario, the
unmapped identifier `ENSMUSG1` yields the symbol `"ENSMUSG1"`, not a
missing value. -/
theorem map_to_mgi_fills_unmapped :
    (∀ (var_names : List Str) (conv : List (Str × Option Str)),
        map_to_mgi var_names conv = var_names.map (mgiSymbolSpec conv)) ∧
    map_to_mgi ["ENSMUSG1".data] [("ENSMUSG1".data, none)] = ["ENSMUSG1".data] := by
  refine ⟨?_, by decide⟩
  intro var_names conv
  show (leftJoin var_names (drop_duplicates conv)).map (fun r => r.2.getD r.1) =
    var_names.map (mgiSymbolSpec conv)
  induction var_names with
  | nil => rfl
  | cons id rest ih =>
      unfold leftJoin at ih ⊢
      rw [List.flatMap_cons, List.map_append, ih, joinRows_drop_duplicates,
        List.map_singleton, List.singleton_append, List.map_cons]
      congr 1
      unfold mgiSymbolSpec
      cases hf : conv.find? (fun r => r.1 == id) with
      | none => rfl
      | some r => rfl

/-- C9: because duplicate source identifiers are dropped before the left
join, the join produces exactly one row per feature, in feature order —
it can neither add, remove, nor reorder rows — so the written symbol
column has exactly one entry per feature. -/
theorem map_to_mgi_one_row_per_feature :
    ∀ (var_names : List Str) (conv : List (Str × Option Str)),
      (leftJoin var_names (drop_duplicates conv)).map Prod.fst = var_names ∧
      (map_to_mgi var_names conv).length = var_names.length := by
  intro var_names conv
  have hjoin : ∀ vns : List Str,
      (leftJoin vns (drop_duplicates conv)).map Prod.fst = vns := by
    intro vns
    induction vns with
    | nil => rfl
    | cons id rest ih =>
        unfold leftJoin at ih ⊢
        rw [List.flatMap_cons, joinRows_drop_duplicates, List.map_append,
          List.map_singleton, ih, List.singleton_append]
  refine ⟨hjoin var_names, ?_⟩
  show ((leftJoin var_names (drop_duplicates conv)).map (fun r => r.2.getD r.1)).length = _
  rw [List.length_map]
  have hlen := congrArg List.length (hjoin var_names)
  rwa [List.length_map] at hlen

/-- C6: `plot_markers` never hands more than `n_max` features to the
plotting code: a successful run returns the resolved list truncated to
its first `n_max` elements. -/
theorem plot_markers_truncates_to_n_max :
    ∀ (adata : AData) (key : Str) (keyRE : Regex)
      (markers : Option (List (Str × List Regex))) (basis : Str) (n_max : Nat)
      (use_raw ignore_case protein : Bool) (pk pnk : Str) (gs : List Str),
      plot_markers_genes adata key keyRE markers basis n_max use_raw ignore_case
          protein pk pnk = .ok gs →
      gs.length ≤ n_max ∧
      ∃ g0, resolveGenes adata key keyRE markers use_raw ignore_case protein
          pk pnk = .ok g0 ∧ g0 ≠ [] ∧ gs = g0.take n_max := by
  intro adata key keyRE markers basis n_max use_raw ignore_case protein pk pnk gs h
  unfold plot_markers_genes at h
  by_cases hb : ("X_".data ++ basis) ∉ adata.obsm_keys
  · rw [if_pos hb] at h
    exact absurd h (by simp)
  · rw [if_neg hb] at h
    cases hres : resolveGenes adata key keyRE markers use_raw ignore_case protein
        pk pnk with
    | error e =>
        rw [hres] at h
        exact absurd h (by simp)
    | ok genes =>
        rw [hres] at h
        dsimp only at h
        by_cases hlen : genes.length = 0
        · rw [if_pos hlen] at h
          exact absurd h (by simp)
        · rw [if_neg hlen] at h
          simp only [Except.ok.injEq] at h
          subst h
          have hne : genes ≠ [] := by
            intro hg
            rw [hg] at hlen
            exact hlen rfl
          refine ⟨?_, genes, rfl, hne, ?_⟩
          · by_cases hm : n_max < genes.length
            · rw [if_pos hm, List.length_take]
              omega
            · rw [if_neg hm]
              omega
          · by_cases hm : n_max < genes.length
            · rw [if_pos hm]
            · rw [if_neg hm, List.take_of_length_le (by omega)]

/-- Witness for C6: a run that resolves one feature with `n_max = 10`. -/
theorem plot_markers_truncates_to_n_max_witness :
    (["a".data] : List Str).length ≤ 10 ∧
    ∃ g0, resolveGenes ⟨["X_umap".data], [], ["a".data], none, []⟩ "a".data
        (litP "a".data) none false false false "prot".data "prot_names".data =
          .ok g0 ∧ g0 ≠ [] ∧ ["a".data] = g0.take 10 :=
  plot_markers_truncates_to_n_max ⟨["X_umap".data], [], ["a".data], none, []⟩
    "a".data (litP "a".data) none "umap".data 10 false false false
    "prot".data "prot_names".data ["a".data] (by rfl)

/-- `charKeyGenes` can only fail with the `TypeError` from
`genes.append(*genes_)`; it never raises a `ValueError`. -/
theorem charKeyGenes_no_value_error (ic : Bool) (vns : List Str) :
    ∀ (key : Str) (acc : List Str) (k : VEKind),
      charKeyGenes ic vns acc key ≠ .error (.valueError k) := by
  intro key
  induction key with
  | nil =>
      intro acc k h
      exact absurd h (by simp [charKeyGenes])
  | cons c cs ih =>
      intro acc k h
      unfold charKeyGenes at h
      cases hf : vns.filter (fun l => reSearch ic (.char c) l) with
      | nil =>
          rw [hf] at h
          simp at h
      | cons g rest =>
          cases rest with
          | nil =>
              rw [hf] at h
              exact ih (acc ++ [g]) k h
          | cons g₂ r₂ =>
              rw [hf] at h
              simp at h

/-- The only `ValueError` that gene/protein resolution itself can raise
is the missing-protein-fields one, and it raises it exactly when protein
mode is on and a required field is absent. -/
theorem resolveGenes_value_error_iff (adata : AData) (key : Str) (keyRE : Regex)
    (markers : Option (List (Str × List Regex)))
    (use_raw ignore_case protein : Bool) (pk pnk : Str) (k : VEKind) :
    resolveGenes adata key keyRE markers use_raw ignore_case protein pk pnk =
        .error (.valueError k) ↔
      (k = .missingProtein ∧ protein = true ∧
        (pnk ∉ adata.uns_keys ∨ pk ∉ adata.obsm_keys)) := by
  unfold resolveGenes
  cases protein with
  | true =>
      by_cases hm : pnk ∉ adata.uns_keys ∨ pk ∉ adata.obsm_keys
      · rw [if_pos rfl, if_pos hm]
        constructor
        · intro h
          simp only [Except.error.injEq, PErr.valueError.injEq] at h
          exact ⟨h.symm, rfl, hm⟩
        · intro h
          rw [h.1]
      · rw [if_pos rfl, if_neg hm]
        constructor
        · intro h
          simp at h
        · intro h
          exact absurd h.2.2 hm
  | false =>
      rw [if_neg (by simp)]
      constructor
      · intro h
        exfalso
        cases markers with
        | some mk =>
            dsimp only at h
            cases hf : mk.find? (fun kv => kv.1 == key) with
            | some kv => rw [hf] at h; simp at h
            | none => rw [hf] at h; simp at h
        | none =>
            dsimp only at h
            exact charKeyGenes_no_value_error ignore_case _ key [] k h
      · intro h
        exact absurd h.2.1 (by simp)

/-- C5: `plot_markers` raises a `ValueError` exactly when the embedding
basis is absent from `adata.obsm` (and then it is the basis error,
raised first, whatever the other arguments hold), or protein mode is on
while the protein names or the protein block are missing, or resolution
completes with zero matching feature names; and in all those cases an
error, not a feature list, is returned. -/
theorem plot_markers_value_error_iff :
    ∀ (adata : AData) (key : Str) (keyRE : Regex)
      (markers : Option (List (Str × List Regex))) (basis : Str) (n_max : Nat)
      (use_raw ignore_case protein : Bool) (pk pnk : Str),
      ((∃ k, plot_markers_genes adata key keyRE markers basis n_max use_raw
          ignore_case protein pk pnk = .error (.valueError k)) ↔
        (("X_".data ++ basis) ∉ adata.obsm_keys ∨
         (protein = true ∧ (pnk ∉ adata.uns_keys ∨ pk ∉ adata.obsm_keys)) ∨
         resolveGenes adata key keyRE markers use_raw ignore_case protein pk pnk =
           .ok [])) ∧
      (("X_".data ++ basis) ∉ adata.obsm_keys →
        plot_markers_genes adata key keyRE markers basis n_max use_raw
          ignore_case protein pk pnk = .error (.valueError .missingBasis)) := by
  intro adata key keyRE markers basis n_max use_raw ignore_case protein pk pnk
  by_cases hb : ("X_".data ++ basis) ∉ adata.obsm_keys
  · have hpm : plot_markers_genes adata key keyRE markers basis n_max use_raw
        ignore_case protein pk pnk = .error (.valueError .missingBasis) := by
      unfold plot_markers_genes
      rw [if_pos hb]
    refine ⟨⟨fun _ => Or.inl hb, fun _ => ⟨.missingBasis, hpm⟩⟩, fun _ => hpm⟩
  · refine ⟨?_, fun hcon => absurd hcon hb⟩
    unfold plot_markers_genes
    rw [if_neg hb]
    cases hres : resolveGenes adata key keyRE markers use_raw ignore_case protein
        pk pnk with
    | error e =>
        dsimp only
        cases e with
        | valueError k =>
            have hk := (resolveGenes_value_error_iff adata key keyRE markers
              use_raw ignore_case protein pk pnk k).mp hres
            exact ⟨fun _ => Or.inr (Or.inl ⟨hk.2.1, hk.2.2⟩), fun _ => ⟨k, rfl⟩⟩
        | typeError =>
            constructor
            · rintro ⟨k, hkeq⟩
              simp at hkeq
            · rintro (h | h | h)
              · exact absurd h hb
              · have hcon := (resolveGenes_value_error_iff adata key keyRE markers
                  use_raw ignore_case protein pk pnk .missingProtein).mpr
                  ⟨rfl, h.1, h.2⟩
                rw [hres] at hcon
                simp at hcon
              · simp at h
    | ok genes =>
        dsimp only
        by_cases hlen : genes.length = 0
        · rw [if_pos hlen]
          have hnil : genes = [] := List.length_eq_zero.mp hlen
          exact ⟨fun _ => Or.inr (Or.inr (by rw [hnil])),
            fun _ => ⟨.noGenes, rfl⟩⟩
        · rw [if_neg hlen]
          constructor
          · rintro ⟨k, hkeq⟩
            simp at hkeq
          · rintro (h | h | h)
            · exact absurd h hb
            · have hcon := (resolveGenes_value_error_iff adata key keyRE markers
                use_raw ignore_case protein pk pnk .missingProtein).mpr
                ⟨rfl, h.1, h.2⟩
              rw [hres] at hcon
              simp at hcon
            · simp only [Except.ok.injEq] at h
              rw [h] at hlen
              exact absurd rfl hlen

/-- Witness for C5: requesting basis `tsne` when only `pca` is computed
yields the missing-basis `ValueError`, before anything else is read. -/
theorem plot_markers_value_error_iff_witness :
    plot_markers_genes ⟨["X_pca".data], [], [], none, []⟩ "k".data (litP "k".data)
        none "tsne".data 10 false false false "prot".data "prot_names".data =
      .error (.valueError .missingBasis) :=
  (plot_markers_value_error_iff ⟨["X_pca".data], [], [], none, []⟩ "k".data
      (litP "k".data) none "tsne".data 10 false false false "prot".data
      "prot_names".data).2 (by decide)

/-! ## Claims about `cluster_distr` -/

/-- Sums of pointwise sums of naturals split. -/
theorem list_sum_map_add (L : List Str) (f g : Str → ℕ) :
    (L.map (fun b => f b + g b)).sum = (L.map f).sum + (L.map g).sum := by
  induction L with
  | nil => rfl
  | cons x l ih =>
      simp only [List.map_cons, List.sum_cons, ih]
      omega

/-- An equality indicator sums to zero over a list the value avoids. -/
theorem list_sum_ind_not_mem (a : Str) :
    ∀ L : List Str, a ∉ L →
      (L.map (fun b => if a == b then (1 : ℕ) else 0)).sum = 0 := by
  intro L
  induction L with
  | nil => intro _; rfl
  | cons x l ih =>
      intro ha
      rw [List.map_cons, List.sum_cons, ih (fun h => ha (List.mem_cons_of_mem _ h))]
      have hax : (a == x) = false := by
        rw [beq_eq_false_iff_ne]
        intro h
        refine ha ?_
        rw [h]
        exact List.mem_cons_self x l
      simp [hax]

/-- An equality indicator sums to one over a duplicate-free list that
holds the value once. -/
theorem list_sum_ind_mem (a : Str) :
    ∀ L : List Str, L.Nodup → a ∈ L →
      (L.map (fun b => if a == b then (1 : ℕ) else 0)).sum = 1 := by
  intro L
  induction L with
  | nil => intro _ ha; cases ha
  | cons x l ih =>
      intro hnd ha
      rw [List.map_cons, List.sum_cons]
      rcases List.mem_cons.mp ha with he | hm
      · have hax : (a == x) = true := by
          rw [he]
          exact beq_self_eq_true x
        have hnotin : a ∉ l := by
          rw [he]
          exact (List.nodup_cons.mp hnd).1
        rw [list_sum_ind_not_mem a l hnotin]
        simp [hax]
      · have hax : (a == x) = false := by
          rw [beq_eq_false_iff_ne]
          intro he
          exact (List.nodup_cons.mp hnd).1 (he ▸ hm)
        rw [ih (List.nodup_cons.mp hnd).2 hm]
        simp [hax]

/-- Partitioning cells of one cluster by batch: when the batch
categories are duplicate-free and cover every cell, the per-batch counts
of a cluster sum to the cluster's cell count. -/
theorem sum_nClusterBatch (batches : List Str) (c : Str) (hnd : batches.Nodup) :
    ∀ obs : List (Str × Str), (∀ x ∈ obs, x.2 ∈ batches) →
      (batches.map (fun b => nClusterBatch obs c b)).sum = nCluster obs c := by
  intro obs
  induction obs with
  | nil =>
      intro _
      simp [nClusterBatch, nCluster]
  | cons x l ih =>
      intro hcov
      have hcov' : ∀ y ∈ l, y.2 ∈ batches := fun y hy => hcov y (List.mem_cons_of_mem _ hy)
      have hx2 : x.2 ∈ batches := hcov x (List.mem_cons_self x l)
      unfold nClusterBatch nCluster
      simp only [List.countP_cons]
      rw [list_sum_map_add batches (fun b => List.countP (fun y => y.1 == c && y.2 == b) l)
        (fun b => if (x.1 == c && x.2 == b) = true then 1 else 0)]
      rw [show (batches.map (fun b => List.countP (fun y => y.1 == c && y.2 == b) l)).sum =
        nCluster l c from ih hcov']
      unfold nCluster
      congr 1
      by_cases hc : (x.1 == c) = true
      · simp only [hc, Bool.true_and, if_true]
        exact list_sum_ind_mem x.2 batches hnd hx2
      · have hcf : (x.1 == c) = false := by simpa using hc
        simp [hcf]

/-- Sums of pointwise quotients by a common denominator split. -/
theorem list_sum_map_div (L : List Str) (f : Str → ℚ) (d : ℚ) :
    (L.map (fun b => f b / d)).sum = (L.map f).sum / d := by
  induction L with
  | nil => simp
  | cons x l ih => simp [List.map_cons, List.sum_cons, ih, add_div]

/-- Casting commutes with summing a list of naturals. -/
theorem list_sum_map_cast (L : List Str) (n : Str → ℕ) :
    (L.map (fun b => (n b : ℚ))).sum = ((L.map n).sum : ℚ) := by
  induction L with
  | nil => simp
  | cons x l ih => simp [ih]

/-- Banker's rounding moves a rational by at most one half. -/
theorem roundHalfEven_close (x : ℚ) : |(roundHalfEven x : ℚ) - x| ≤ 1/2 := by
  have h0 : (⌊x⌋ : ℚ) ≤ x := Int.floor_le x
  have h1 : x < ⌊x⌋ + 1 := Int.lt_floor_add_one x
  unfold roundHalfEven
  split_ifs with hr hr₂ hev
  · rw [abs_le]
    constructor <;> linarith
  · rw [abs_le]
    push_cast
    constructor <;> linarith
  · rw [abs_le]
    constructor <;> linarith
  · rw [abs_le]
    push_cast
    constructor <;> linarith

/-- Rounding to two decimals moves a rational by at most `1/200`. -/
theorem np_round2_close (y : ℚ) : |np_round2 y - y| ≤ 1/200 := by
  have h := roundHalfEven_close (100 * y)
  unfold np_round2
  have heq : (roundHalfEven (100 * y) : ℚ) / 100 - y =
      ((roundHalfEven (100 * y) : ℚ) - 100 * y) / 100 := by ring
  rw [heq, abs_div, abs_of_pos (show (0:ℚ) < 100 by norm_num)]
  linarith

/-- Summing pointwise-close functions over a list keeps the sums within
`length · ε` of each other. -/
theorem list_sum_abs_le (f g : Str → ℚ) (ε : ℚ) :
    ∀ L : List Str, (∀ b ∈ L, |f b - g b| ≤ ε) →
      |(L.map f).sum - (L.map g).sum| ≤ L.length * ε := by
  intro L
  induction L with
  | nil => intro _; simp
  | cons x l ih =>
      intro h
      rw [List.map_cons, List.map_cons, List.sum_cons, List.sum_cons]
      have h1 : |f x - g x| ≤ ε := h x (List.mem_cons_self x l)
      have h2 : |(l.map f).sum - (l.map g).sum| ≤ l.length * ε :=
        ih (fun b hb => h b (List.mem_cons_of_mem _ hb))
      have htri : |f x + (l.map f).sum - (g x + (l.map g).sum)| ≤
          |f x - g x| + |(l.map f).sum - (l.map g).sum| := by
        have hre : f x + (l.map f).sum - (g x + (l.map g).sum) =
            (f x - g x) + ((l.map f).sum - (l.map g).sum) := by ring
        rw [hre]
        exact abs_add _ _
      rw [List.length_cons]
      push_cast
      linarith

/-- C7: for a cluster with at least one cell, the exact per-batch ratios
`count(cluster ∧ batch) / count(cluster)` sum to 1 over the (covering,
duplicate-free) batch categories; the rounded `perc_` entries of
`cluster_distr` therefore sum to 1 up to the applied two-decimal
rounding; and the returned table is indexed by the clusters, with one
`perc_` column per batch plus a `total number` column. -/
theorem cluster_distr_percentages :
    ∀ (obs : List (Str × Str)) (clusters batches : List Str) (c : Str),
      batches.Nodup → (∀ x ∈ obs, x.2 ∈ batches) → 0 < nCluster obs c →
      (batches.map (fun b => percRaw obs c b)).sum = 1 ∧
      |(batches.map (fun b => percEntry obs c b)).sum - 1| ≤ (batches.length : ℚ) / 200 ∧
      cluster_distr_index clusters = clusters ∧
      (∀ b ∈ batches, ("perc_".data ++ b) ∈ cluster_distr_cols batches) ∧
      "total number".data ∈ cluster_distr_cols batches := by
  intro obs clusters batches c hnd hcov hpos
  have hne : (nCluster obs c : ℚ) ≠ 0 := Nat.cast_ne_zero.mpr hpos.ne'
  have hraw : (batches.map (fun b => percRaw obs c b)).sum = 1 := by
    unfold percRaw
    rw [list_sum_map_div batches (fun b => (nClusterBatch obs c b : ℚ)) (nCluster obs c : ℚ),
      list_sum_map_cast batches (fun b => nClusterBatch obs c b),
      sum_nClusterBatch batches c hnd obs hcov]
    exact div_self hne
  refine ⟨hraw, ?_, rfl, ?_, ?_⟩
  · have hdev := list_sum_abs_le (fun b => percEntry obs c b) (fun b => percRaw obs c b)
      (1/200) batches (fun b _ => np_round2_close (percRaw obs c b))
    rw [hraw] at hdev
    have hlen : (batches.length : ℚ) * (1/200) = (batches.length : ℚ) / 200 := by ring
    rw [hlen] at hdev
    exact hdev
  · intro b hb
    unfold cluster_distr_cols
    exact List.mem_append_left _ (List.mem_map_of_mem _ hb)
  · unfold cluster_distr_cols
    refine List.mem_append_right _ ?_
    simp

/-- Witness for C7: two cells of cluster `0`, one per batch, with
batches `a` and `b`. -/
theorem cluster_distr_percentages_witness :
    ((["a".data, "b".data] : List Str).map
        (fun b => percRaw [("0".data, "a".data), ("0".data, "b".data)] "0".data b)).sum = 1 ∧
    |((["a".data, "b".data] : List Str).map
        (fun b => percEntry [("0".data, "a".data), ("0".data, "b".data)] "0".data b)).sum - 1| ≤
      ((["a".data, "b".data] : List Str).length : ℚ) / 200 ∧
    cluster_distr_index ["0".data] = ["0".data] ∧
    (∀ b ∈ (["a".data, "b".data] : List Str),
      ("perc_".data ++ b) ∈ cluster_distr_cols ["a".data, "b".data]) ∧
    "total number".data ∈ cluster_distr_cols ["a".data, "b".data] :=
  cluster_distr_percentages [("0".data, "a".data), ("0".data, "b".data)] ["0".data]
    ["a".data, "b".data] "0".data (by decide) (by decide) (by decide)
